import Mathlib

/-!
Shallow embedding of `src/middleware/process.ts`: the sequential middleware
chain executor `processMiddleware` / `invokeMiddleware`.

Handler behaviour is modelled by a small program type `HProg`; the observable
effects of one execution (entry into a handler, a handler side effect, entry
into the terminal handler) are recorded in an event trace carried in an
explicit state, and promise rejection is modelled with `Except`.  An awaited
`next()` call is modelled by running the advance action to completion before
the code written after the await, which is the awaited interleaving the
executor is specified against.
-/

/-- Observable events of one execution: `call i` is recorded exactly when the
executor invokes `middleware[i]`, `emit n` is a side effect performed by
handler code, and `last` is recorded when a (recording) terminal handler is
entered. -/
inductive Event where
  | call : Nat → Event
  | emit : Nat → Event
  | last : Event
deriving DecidableEq

/-- Failures: `coded code msg` models a thrown `CodedError` (such as
`MiddlewareNextError`), `handlerFail n` models an arbitrary failure raised by
handler code, and `notCallable` models the TypeError raised when handler code
invokes a `next` value that is not a function. -/
inductive Err where
  | coded : String → String → Err
  | handlerFail : Nat → Err
  | notCallable : Err
deriving DecidableEq

/-- Executor state: `lastIdx` is the source variable
`lastCalledMiddlewareIndex` (created at `-1`), and `trace` is the list of
events observed so far. -/
structure St where
  lastIdx : Int
  trace : List Event
deriving DecidableEq

deriving instance DecidableEq for Except

/-- A computation: state in, `Except` result (promise resolution or
rejection) together with the state out. -/
def M (α : Type) : Type := St → Except Err α × St

/-- Values stored in argument bundles: `data` is an opaque caller supplied
value, `fn` is a callable value (such as the advance capability `next`). -/
inductive Val where
  | data : Nat → Val
  | fn : M Unit → Val

/-- A JavaScript object literal, as its insertion sequence of key-value
pairs; a later pair overwrites an earlier one with the same key. -/
abbrev Obj : Type := List (String × Val)

def kNext : String := "next"

def kContext : String := "context"

def kClient : String := "client"

def kLogger : String := "logger"

/-- Property read on an object literal: the value of the LAST occurrence of
the key wins, matching the overwrite semantics of object literals and of the
spread operator. -/
def Obj.lookup : Obj → String → Option Val
  | [], _ => none
  | kv :: rest, k =>
    match Obj.lookup rest k with
    | some v => some v
    | none => if kv.1 = k then some kv.2 else none

/-- Whether a key occurs at all in the literal. -/
def Obj.hasKey (o : Obj) (k : String) : Bool :=
  o.any (fun kv => kv.1 == k)

/-- The argument bundle built for one handler invocation, mirroring the
object literal of the source call
`fn({ next: ..., ...initialArgs, context, client, logger })`:
the `next` capability first, then the spread of `initialArgs`, then
`context`, `client` and `logger`. -/
def mkBundle (nextCap : Val) (initialArgs : Obj) (context client logger : Val) : Obj :=
  (kNext, nextCap) ::
    (initialArgs ++ [(kContext, context), (kClient, client), (kLogger, logger)])

/-- Deep embedding of one middleware handler body, as the executor can
observe it: finish normally, record a side effect and continue, await the
bundle value `next` and then continue (the continuation holds the code
written after the await), or raise a failure. -/
inductive HProg where
  | done : HProg
  | emit : Nat → HProg → HProg
  | next : HProg → HProg
  | fail : Nat → HProg
deriving DecidableEq

/-- Run a handler body against its argument bundle.  An awaited `next()`
call runs the bundle value stored under the key `next`; a rejection of that
call rejects the handler itself (nothing is caught), a non-callable value
there raises `notCallable`, and the code after the await runs only once the
advance call has resolved. -/
def runProg : HProg → Obj → M Unit
  | HProg.done, _ => fun s => (Except.ok (), s)
  | HProg.emit n p, b => fun s => runProg p b { s with trace := s.trace ++ [Event.emit n] }
  | HProg.next p, b => fun s =>
    match Obj.lookup b kNext with
    | some (Val.fn act) =>
      match act s with
      | (Except.ok _, s1) => runProg p b s1
      | (Except.error e, s1) => (Except.error e, s1)
    | _ => (Except.error Err.notCallable, s)
  | HProg.fail n, _ => fun s => (Except.error (Err.handlerFail n), s)

/-- Modelled from the spec: the class `MiddlewareNextError` is imported from
`../errors`, which is not part of the provided source.  The spec requires the
DuplicateAdvance failure to carry a stable machine readable identifier (a
fixed error code string) distinguishing it from arbitrary handler failures,
and the test suite of the executor checks that this code is the string
below. -/
def middlewareNextCode : String := "slack_bolt_middleware_next_error"

/-- The message of the source throw site. -/
def middlewareNextMsg : String := "next() called multiple times"

/-- The DuplicateAdvance error:
`throw new MiddlewareNextError('next() called multiple times')`. -/
def dupNextErr : Err := Err.coded middlewareNextCode middlewareNextMsg

/-- The recursive step of the source, structurally recursive over the suffix
`rest = middleware.drop i` of the chain.  It mirrors the body of
`invokeMiddleware` in order: first the duplicate check
`lastCalledMiddlewareIndex >= toCallMiddlewareIndex`, then the update
`lastCalledMiddlewareIndex = toCallMiddlewareIndex`, then either the terminal
handler (when the index is at or past the end, i.e. the suffix is empty) or
the handler at the index, invoked with the freshly built argument bundle
whose `next` entry runs the executor at the following index.  The event
`Event.call i` records the invocation of `middleware[i]`. -/
def invokeCore (ia : Obj) (context client logger : Val) (lastH : M Unit) :
    List HProg → Nat → M Unit
  | [], i => fun s =>
    if s.lastIdx ≥ (i : Int) then (Except.error dupNextErr, s)
    else lastH { s with lastIdx := (i : Int) }
  | p :: rest, i => fun s =>
    if s.lastIdx ≥ (i : Int) then (Except.error dupNextErr, s)
    else
      runProg p
        (mkBundle (Val.fn (invokeCore ia context client logger lastH rest (i + 1)))
          ia context client logger)
        { s with lastIdx := (i : Int), trace := s.trace ++ [Event.call i] }

/-- The source `invokeMiddleware toCallMiddlewareIndex`, with the parameters
of the enclosing function made explicit. -/
def invokeMiddleware (chain : List HProg) (ia : Obj) (context client logger : Val)
    (lastH : M Unit) (i : Nat) : M Unit :=
  invokeCore ia context client logger lastH (chain.drop i) i

/-- The source default for the `last` parameter: `async () => { }`. -/
def defaultLast : M Unit := fun s => (Except.ok (), s)

/-- `processMiddleware`: an empty chain goes straight to the terminal
handler, with no counter bookkeeping at all; otherwise the counter is
created at `-1` and `invokeMiddleware 0` starts the chain, whose completion
is returned unchanged. -/
def processMiddleware (chain : List HProg) (ia : Obj) (context client logger : Val)
    (lastH : M Unit) : M Unit :=
  if chain.length ≤ 0 then lastH
  else fun s =>
    invokeMiddleware chain ia context client logger lastH 0 { s with lastIdx := -1 }

/-- One whole execution, from an empty trace. -/
def execP (chain : List HProg) (ia : Obj) (context client logger : Val)
    (lastH : M Unit) : Except Err Unit × St :=
  processMiddleware chain ia context client logger lastH { lastIdx := -1, trace := [] }

/-- A terminal handler that records its own invocation and succeeds. -/
def lastOk : M Unit := fun s => (Except.ok (), { s with trace := s.trace ++ [Event.last] })

/-- A terminal handler that records its own invocation and then raises. -/
def lastFailT (n : Nat) : M Unit :=
  fun s => (Except.error (Err.handlerFail n), { s with trace := s.trace ++ [Event.last] })

/-- How many times a handler body invokes `next`. -/
def nextCount : HProg → Nat
  | HProg.done => 0
  | HProg.emit _ p => nextCount p
  | HProg.next p => nextCount p + 1
  | HProg.fail _ => 0

/-- Whether a handler body ends by raising a failure. -/
def hasFail : HProg → Bool
  | HProg.done => false
  | HProg.emit _ p => hasFail p
  | HProg.next p => hasFail p
  | HProg.fail _ => true

/-- A handler that unconditionally advances exactly once and never raises. -/
abbrev advOnce (p : HProg) : Prop := nextCount p = 1 ∧ hasFail p = false

/-- The side effects a handler performs before its first `next` call. -/
def preEmits : HProg → List Nat
  | HProg.done => []
  | HProg.emit n p => n :: preEmits p
  | HProg.next _ => []
  | HProg.fail _ => []

/-- All side effects of a handler body, in order. -/
def emitsOf : HProg → List Nat
  | HProg.done => []
  | HProg.emit n p => n :: emitsOf p
  | HProg.next p => emitsOf p
  | HProg.fail _ => []

/-- The side effects a handler performs after its first `next` call. -/
def postEmits : HProg → List Nat
  | HProg.done => []
  | HProg.emit _ p => postEmits p
  | HProg.next p => emitsOf p
  | HProg.fail _ => []

/-- The canonical nested trace of a chain suffix starting at index `i` in
which every handler advances exactly once: entry into the handler, its
before effects, the whole rest of the chain, then its after effects; the
terminal handler runs at the innermost position. -/
def fullTraceL : List HProg → Nat → List Event
  | [], _ => [Event.last]
  | p :: rest, i =>
    Event.call i :: (preEmits p).map Event.emit
      ++ fullTraceL rest (i + 1) ++ (postEmits p).map Event.emit

/-- The canonical trace of a chain suffix starting at index `i` that is cut
short `d` steps later by a handler that never advances: the unwind of the
after effects still happens, but nothing beyond the cutoff ever runs. -/
def cutTraceL : Nat → List HProg → Nat → List Event
  | _, [], _ => []
  | 0, p :: _, i => Event.call i :: (emitsOf p).map Event.emit
  | d + 1, p :: rest, i =>
    Event.call i :: (preEmits p).map Event.emit
      ++ cutTraceL d rest (i + 1) ++ (postEmits p).map Event.emit

/-- Forget handler side effects, keeping only handler entries and the
terminal handler entry. -/
def keyEvents (tr : List Event) : List Event :=
  tr.filter fun e =>
    match e with
    | Event.emit _ => false
    | _ => true

/-- The indices of the handler entry events of a trace, in order. -/
def callsOf (tr : List Event) : List Nat :=
  tr.filterMap fun e =>
    match e with
    | Event.call j => some j
    | _ => none

/-- Invariant of every action the executor can perform from a given state:
the trace only grows, the counter never decreases, every recorded handler
entry lies strictly above the incoming counter and at most at the outgoing
counter, handler entries are recorded in strictly increasing index order,
and the terminal handler is entered at most once, only while the counter
still lies below the chain length. -/
def GoodStep (len : Nat) (act : M Unit) : Prop :=
  ∀ s, ∃ Δ,
    (act s).2.trace = s.trace ++ Δ ∧
    s.lastIdx ≤ (act s).2.lastIdx ∧
    (∀ j ∈ callsOf Δ, s.lastIdx < (j : Int) ∧ (j : Int) ≤ (act s).2.lastIdx) ∧
    (callsOf Δ).Pairwise (fun a b => a < b) ∧
    Δ.count Event.last ≤ 1 ∧
    (Event.last ∈ Δ → s.lastIdx < (len : Int) ∧ (len : Int) ≤ (act s).2.lastIdx)

/-- Concrete opaque caller values used in witnesses. -/
def vCtx : Val := Val.data 100

def vClient : Val := Val.data 101

def vLogger : Val := Val.data 102

/-- A handler that records effect 10 and advances once. -/
def hA : HProg := HProg.emit 10 (HProg.next HProg.done)

/-- A handler that records effect 20 and advances once. -/
def hB : HProg := HProg.emit 20 (HProg.next HProg.done)

/-- A handler with a before effect, an awaited advance, and an after
effect. -/
def aNest : HProg := HProg.emit 1 (HProg.next (HProg.emit 2 HProg.done))

/-- A handler that advances immediately and finishes. -/
def bImm : HProg := HProg.next HProg.done

/-- A handler that awaits its advance twice in a row. -/
def aTwice : HProg := HProg.next (HProg.next HProg.done)

theorem runProg_done_eq (b : Obj) (s : St) : runProg HProg.done b s = (Except.ok (), s) := rfl

theorem runProg_emit_eq (n : Nat) (q : HProg) (b : Obj) (s : St) :
    runProg (HProg.emit n q) b s =
      runProg q b { s with trace := s.trace ++ [Event.emit n] } := rfl

theorem runProg_next_eq (q : HProg) (b : Obj) (s : St) :
    runProg (HProg.next q) b s =
      match Obj.lookup b kNext with
      | some (Val.fn act) =>
        match act s with
        | (Except.ok _, s1) => runProg q b s1
        | (Except.error e, s1) => (Except.error e, s1)
      | _ => (Except.error Err.notCallable, s) := rfl

theorem runProg_fail_eq (m : Nat) (b : Obj) (s : St) :
    runProg (HProg.fail m) b s = (Except.error (Err.handlerFail m), s) := rfl

theorem drop_cons_of_lt (l : List HProg) (i : Nat) (h : i < l.length) :
    l.drop i = l.getD i HProg.done :: l.drop (i + 1) := by
  rw [List.drop_eq_getElem_cons h, List.getD_eq_getElem l HProg.done h]

theorem drop_nil_of_le (l : List HProg) (i : Nat) (h : l.length ≤ i) : l.drop i = [] :=
  List.drop_eq_nil_of_le h

/-- The duplicate check fires first: when the counter has already reached the
requested index, the step fails with the DuplicateAdvance error and has no
other effect (the state is returned untouched). -/
theorem invoke_dup (chain : List HProg) (ia : Obj) (c cl lg : Val) (lastH : M Unit)
    (i : Nat) (s : St) (h : (i : Int) ≤ s.lastIdx) :
    invokeMiddleware chain ia c cl lg lastH i s = (Except.error dupNextErr, s) := by
  unfold invokeMiddleware
  cases hd : chain.drop i with
  | nil => simp only [invokeCore, if_pos (show s.lastIdx ≥ (i : Int) from h)]
  | cons p rest => simp only [invokeCore, if_pos (show s.lastIdx ≥ (i : Int) from h)]

/-- Past the end of the chain, a passing step records its index and runs the
terminal handler in the updated state. -/
theorem invoke_stop (chain : List HProg) (ia : Obj) (c cl lg : Val) (lastH : M Unit)
    (i : Nat) (s : St) (h1 : s.lastIdx < (i : Int)) (h2 : chain.length ≤ i) :
    invokeMiddleware chain ia c cl lg lastH i s = lastH { s with lastIdx := (i : Int) } := by
  unfold invokeMiddleware
  rw [drop_nil_of_le chain i h2]
  simp only [invokeCore, if_neg (not_le.mpr h1)]

/-- Within the chain, a passing step records its index and then runs the
handler at that index, against the freshly built bundle whose `next` entry is
the executor continuation at the following index; whatever that handler
returns is returned unchanged. -/
theorem invoke_handler (chain : List HProg) (ia : Obj) (c cl lg : Val) (lastH : M Unit)
    (i : Nat) (s : St) (h1 : s.lastIdx < (i : Int)) (h2 : i < chain.length) :
    invokeMiddleware chain ia c cl lg lastH i s =
      runProg (chain.getD i HProg.done)
        (mkBundle (Val.fn (invokeMiddleware chain ia c cl lg lastH (i + 1))) ia c cl lg)
        { s with lastIdx := (i : Int), trace := s.trace ++ [Event.call i] } := by
  unfold invokeMiddleware
  rw [drop_cons_of_lt chain i h2]
  simp only [invokeCore, if_neg (not_le.mpr h1)]

theorem lookup_cons (kv : String × Val) (rest : Obj) (k : String) :
    Obj.lookup (kv :: rest) k =
      match Obj.lookup rest k with
      | some v => some v
      | none => if kv.1 = k then some kv.2 else none := rfl

theorem lookup_append_some (xs ys : Obj) (k : String) (v : Val)
    (h : Obj.lookup ys k = some v) : Obj.lookup (xs ++ ys) k = some v := by
  induction xs with
  | nil => simpa using h
  | cons kv rest ih => rw [List.cons_append, lookup_cons, ih]

theorem lookup_append_none (xs ys : Obj) (k : String)
    (h : Obj.lookup ys k = none) : Obj.lookup (xs ++ ys) k = Obj.lookup xs k := by
  induction xs with
  | nil => simpa using h
  | cons kv rest ih => rw [List.cons_append, lookup_cons, ih, lookup_cons]

/-- The `context` entry of a bundle is always the executor supplied value:
it is written after the spread of `initialArgs`. -/
theorem lookup_mkBundle_context (nc : Val) (ia : Obj) (c cl lg : Val) :
    Obj.lookup (mkBundle nc ia c cl lg) kContext = some c := by
  unfold mkBundle
  rw [lookup_cons,
    lookup_append_some ia [(kContext, c), (kClient, cl), (kLogger, lg)] kContext c rfl]

/-- The `client` entry of a bundle is always the executor supplied value. -/
theorem lookup_mkBundle_client (nc : Val) (ia : Obj) (c cl lg : Val) :
    Obj.lookup (mkBundle nc ia c cl lg) kClient = some cl := by
  unfold mkBundle
  rw [lookup_cons,
    lookup_append_some ia [(kContext, c), (kClient, cl), (kLogger, lg)] kClient cl rfl]

/-- The `logger` entry of a bundle is always the executor supplied value. -/
theorem lookup_mkBundle_logger (nc : Val) (ia : Obj) (c cl lg : Val) :
    Obj.lookup (mkBundle nc ia c cl lg) kLogger = some lg := by
  unfold mkBundle
  rw [lookup_cons,
    lookup_append_some ia [(kContext, c), (kClient, cl), (kLogger, lg)] kLogger lg rfl]

theorem lookup_trip_next (c cl lg : Val) :
    Obj.lookup [(kContext, c), (kClient, cl), (kLogger, lg)] kNext = none := rfl

/-- The `next` entry of a bundle: the caller value when `initialArgs`
contains the key (the spread is written after `next`), the fresh capability
otherwise. -/
theorem lookup_mkBundle_next (nc : Val) (ia : Obj) (c cl lg : Val) :
    Obj.lookup (mkBundle nc ia c cl lg) kNext =
      match Obj.lookup ia kNext with
      | some v => some v
      | none => some nc := by
  unfold mkBundle
  rw [lookup_cons, lookup_append_none ia _ _ (lookup_trip_next c cl lg)]
  cases Obj.lookup ia kNext <;> simp [kNext]

theorem lookup_none_of_hasKey_false (o : Obj) (k : String) :
    Obj.hasKey o k = false → Obj.lookup o k = none := by
  induction o with
  | nil => intro _; rfl
  | cons kv rest ih =>
    intro h
    simp only [Obj.hasKey, List.any_cons, Bool.or_eq_false_iff, beq_eq_false_iff_ne] at h
    have hr : Obj.hasKey rest k = false := h.2
    rw [lookup_cons, ih hr, if_neg h.1]

/-- When `initialArgs` does not use the key `next`, every handler bundle
exposes the fresh executor capability under `next`. -/
theorem lookup_mkBundle_next_default (nc : Val) (ia : Obj) (c cl lg : Val)
    (h : Obj.hasKey ia kNext = false) :
    Obj.lookup (mkBundle nc ia c cl lg) kNext = some nc := by
  rw [lookup_mkBundle_next, lookup_none_of_hasKey_false ia kNext h]

/-- A handler that never advances and never raises just performs its side
effects and resolves. -/
theorem runProg_zero (p : HProg) :
    ∀ (b : Obj) (s : St), nextCount p = 0 → hasFail p = false →
      runProg p b s =
        (Except.ok (), { s with trace := s.trace ++ (emitsOf p).map Event.emit }) := by
  induction p with
  | done => intro b s _ _; simp [runProg_done_eq, emitsOf]
  | emit n q ih =>
    intro b s h0 hf
    rw [runProg_emit_eq, ih b _ h0 hf]
    simp [emitsOf, List.append_assoc]
  | next q ih => intro b s h0 _; simp [nextCount] at h0
  | fail m => intro b s _ hf; simp [hasFail] at hf

/-- A handler that advances exactly once and never raises: it performs its
before effects, awaits the advance action, and when that action resolves it
performs its after effects and resolves. -/
theorem runProg_one_ok (p : HProg) :
    ∀ (b : Obj) (act : M Unit) (s s1 : St) (u : Unit),
      nextCount p = 1 → hasFail p = false →
      Obj.lookup b kNext = some (Val.fn act) →
      act { s with trace := s.trace ++ (preEmits p).map Event.emit } = (Except.ok u, s1) →
      runProg p b s =
        (Except.ok (), { s1 with trace := s1.trace ++ (postEmits p).map Event.emit }) := by
  induction p with
  | done => intro b act s s1 u h0 _ _ _; simp [nextCount] at h0
  | fail m => intro b act s s1 u _ hf _ _; simp [hasFail] at hf
  | emit n q ih =>
    intro b act s s1 u h0 hf hb hact
    rw [runProg_emit_eq]
    refine ih b act _ s1 u h0 hf hb ?_
    simpa [preEmits, List.append_assoc] using hact
  | next q ih =>
    intro b act s s1 u h0 hf hb hact
    have hq0 : nextCount q = 0 := by simp [nextCount] at h0; omega
    have hact' : act s = (Except.ok u, s1) := by simpa [preEmits] using hact
    have step : runProg (HProg.next q) b s =
        match act s with
        | (Except.ok _, s2) => runProg q b s2
        | (Except.error e', s2) => (Except.error e', s2) := by
      rw [runProg_next_eq, hb]
    rw [step, hact']
    exact runProg_zero q b s1 hq0 hf

/-- A handler that advances exactly once but then raises: after the advance
action resolves, the after effects before the raise happen and then the
handler rejects with its own failure. -/
theorem runProg_one_err (p : HProg) :
    ∀ (b : Obj) (act : M Unit) (s s1 : St) (e : Err),
      nextCount p = 1 →
      Obj.lookup b kNext = some (Val.fn act) →
      act { s with trace := s.trace ++ (preEmits p).map Event.emit } = (Except.error e, s1) →
      runProg p b s = (Except.error e, s1) := by
  induction p with
  | done => intro b act s s1 e h0 _ _; simp [nextCount] at h0
  | fail m => intro b act s s1 e h0 _ _; simp [nextCount] at h0
  | emit n q ih =>
    intro b act s s1 e h0 hb hact
    rw [runProg_emit_eq]
    refine ih b act _ s1 e h0 hb ?_
    simpa [preEmits, List.append_assoc] using hact
  | next q ih =>
    intro b act s s1 e h0 hb hact
    have hact' : act s = (Except.error e, s1) := by simpa [preEmits] using hact
    have step : runProg (HProg.next q) b s =
        match act s with
        | (Except.ok _, s2) => runProg q b s2
        | (Except.error e', s2) => (Except.error e', s2) := by
      rw [runProg_next_eq, hb]
    rw [step, hact']

/-- Main run lemma for fully advancing chains: starting a passing step at
index `i`, with every handler from `i` on advancing exactly once, the whole
execution resolves, the counter ends at the chain length, and the trace grows
by exactly the canonical nested trace of the suffix. -/
theorem invoke_fullTrace (chain : List HProg) (ia : Obj) (c cl lg : Val)
    (hnk : Obj.hasKey ia kNext = false) :
    ∀ (n i : Nat), chain.length - i = n → i ≤ chain.length →
      (∀ j, i ≤ j → j < chain.length → advOnce (chain.getD j HProg.done)) →
      ∀ s : St, s.lastIdx < (i : Int) →
        invokeMiddleware chain ia c cl lg lastOk i s =
          (Except.ok (),
            { lastIdx := (chain.length : Int),
              trace := s.trace ++ fullTraceL (chain.drop i) i }) := by
  intro n
  induction n with
  | zero =>
    intro i hn hle hadv s hs
    have hi : i = chain.length := by omega
    subst hi
    rw [invoke_stop chain ia c cl lg lastOk chain.length s hs (le_refl _),
      drop_nil_of_le chain chain.length (le_refl _)]
    rfl
  | succ m ih =>
    intro i hn hle hadv s hs
    have hilt : i < chain.length := by omega
    have hadvp : advOnce (chain.getD i HProg.done) := hadv i (le_refl i) hilt
    have hb := lookup_mkBundle_next_default
      (Val.fn (invokeMiddleware chain ia c cl lg lastOk (i + 1))) ia c cl lg hnk
    have hs2 : ((i : Int)) < (((i + 1 : Nat)) : Int) := by push_cast; omega
    have hih := ih (i + 1) (by omega) (by omega)
      (fun j hj1 hj2 => hadv j (by omega) hj2)
      { lastIdx := (i : Int),
        trace := (s.trace ++ [Event.call i])
          ++ (preEmits (chain.getD i HProg.done)).map Event.emit }
      hs2
    have key := runProg_one_ok (chain.getD i HProg.done)
      (mkBundle (Val.fn (invokeMiddleware chain ia c cl lg lastOk (i + 1))) ia c cl lg)
      (invokeMiddleware chain ia c cl lg lastOk (i + 1))
      { s with lastIdx := (i : Int), trace := s.trace ++ [Event.call i] }
      { lastIdx := (chain.length : Int),
        trace := ((s.trace ++ [Event.call i])
          ++ (preEmits (chain.getD i HProg.done)).map Event.emit)
          ++ fullTraceL (chain.drop (i + 1)) (i + 1) }
      () hadvp.1 hadvp.2 hb hih
    rw [invoke_handler chain ia c cl lg lastOk i s hs hilt, key,
      drop_cons_of_lt chain i hilt]
    simp [fullTraceL, List.append_assoc]

/-- Whole-execution version of the run lemma: when every handler advances
exactly once and `initialArgs` does not shadow `next`, the execution resolves
and its trace is the canonical nested trace of the chain. -/
theorem execP_fullTrace (chain : List HProg) (ia : Obj) (c cl lg : Val)
    (hnk : Obj.hasKey ia kNext = false)
    (hadv : ∀ j, j < chain.length → advOnce (chain.getD j HProg.done)) :
    (execP chain ia c cl lg lastOk).1 = Except.ok () ∧
    (execP chain ia c cl lg lastOk).2.trace = fullTraceL chain 0 := by
  cases chain with
  | nil => exact ⟨rfl, rfl⟩
  | cons p rest =>
    have h := invoke_fullTrace (p :: rest) ia c cl lg hnk (p :: rest).length 0 rfl
      (by omega) (fun j hj1 hj2 => hadv j hj2) { lastIdx := -1, trace := [] } (by decide)
    constructor
    · show (invokeMiddleware (p :: rest) ia c cl lg lastOk 0
        { lastIdx := -1, trace := [] }).1 = Except.ok ()
      rw [h]
    · show (invokeMiddleware (p :: rest) ia c cl lg lastOk 0
        { lastIdx := -1, trace := [] }).2.trace = fullTraceL (p :: rest) 0
      rw [h]
      rfl

theorem keyEvents_emits (ns : List Nat) : keyEvents (ns.map Event.emit) = [] := by
  induction ns with
  | nil => rfl
  | cons n rest ih => simp [keyEvents, List.filter_cons]

theorem keyEvents_append (l1 l2 : List Event) :
    keyEvents (l1 ++ l2) = keyEvents l1 ++ keyEvents l2 :=
  List.filter_append l1 l2

theorem keyEvents_cons_call (j : Nat) (l : List Event) :
    keyEvents (Event.call j :: l) = Event.call j :: keyEvents l := by
  simp [keyEvents, List.filter_cons]

/-- Forgetting side effects, the canonical trace of a fully advancing suffix
is exactly: the handler entries in increasing index order, then the terminal
handler entry, each exactly once. -/
theorem keyEvents_fullTraceL (l : List HProg) :
    ∀ i : Nat, keyEvents (fullTraceL l i) =
      (List.range' i l.length).map Event.call ++ [Event.last] := by
  induction l with
  | nil => intro i; rfl
  | cons p rest ih =>
    intro i
    show keyEvents ((Event.call i :: (preEmits p).map Event.emit)
      ++ fullTraceL rest (i + 1) ++ (postEmits p).map Event.emit) = _
    rw [keyEvents_append, keyEvents_append, keyEvents_cons_call, keyEvents_emits,
      keyEvents_emits, ih (i + 1)]
    simp [List.range'_succ]

/-- Main run lemma for chains cut short at index `k` by a handler that never
advances (and never raises): every handler before `k` advances exactly once,
the execution resolves, the counter stops at `k`, and the trace grows by
exactly the canonical cut trace. -/
theorem invoke_cutTrace (chain : List HProg) (ia : Obj) (c cl lg : Val)
    (hnk : Obj.hasKey ia kNext = false) (k : Nat) (hk : k < chain.length)
    (h0 : nextCount (chain.getD k HProg.done) = 0)
    (hf : hasFail (chain.getD k HProg.done) = false) :
    ∀ (n i : Nat), k - i = n → i ≤ k →
      (∀ j, i ≤ j → j < k → advOnce (chain.getD j HProg.done)) →
      ∀ s : St, s.lastIdx < (i : Int) →
        invokeMiddleware chain ia c cl lg lastOk i s =
          (Except.ok (),
            { lastIdx := (k : Int),
              trace := s.trace ++ cutTraceL (k - i) (chain.drop i) i }) := by
  intro n
  induction n with
  | zero =>
    intro i hn hle hadv s hs
    have hi : i = k := by omega
    subst hi
    rw [invoke_handler chain ia c cl lg lastOk i s hs (by omega),
      runProg_zero (chain.getD i HProg.done) _ _ h0 hf,
      drop_cons_of_lt chain i (by omega)]
    have hz : i - i = 0 := by omega
    rw [hz]
    simp [cutTraceL, List.append_assoc]
  | succ m ih =>
    intro i hn hle hadv s hs
    have hilt : i < k := by omega
    have hiltc : i < chain.length := by omega
    have hadvp : advOnce (chain.getD i HProg.done) := hadv i (le_refl i) hilt
    have hb := lookup_mkBundle_next_default
      (Val.fn (invokeMiddleware chain ia c cl lg lastOk (i + 1))) ia c cl lg hnk
    have hs2 : ((i : Int)) < (((i + 1 : Nat)) : Int) := by push_cast; omega
    have hih := ih (i + 1) (by omega) (by omega)
      (fun j hj1 hj2 => hadv j (by omega) hj2)
      { lastIdx := (i : Int),
        trace := (s.trace ++ [Event.call i])
          ++ (preEmits (chain.getD i HProg.done)).map Event.emit }
      hs2
    have key := runProg_one_ok (chain.getD i HProg.done)
      (mkBundle (Val.fn (invokeMiddleware chain ia c cl lg lastOk (i + 1))) ia c cl lg)
      (invokeMiddleware chain ia c cl lg lastOk (i + 1))
      { s with lastIdx := (i : Int), trace := s.trace ++ [Event.call i] }
      { lastIdx := (k : Int),
        trace := ((s.trace ++ [Event.call i])
          ++ (preEmits (chain.getD i HProg.done)).map Event.emit)
          ++ cutTraceL (k - (i + 1)) (chain.drop (i + 1)) (i + 1) }
      () hadvp.1 hadvp.2 hb hih
    rw [invoke_handler chain ia c cl lg lastOk i s hs hiltc, key,
      drop_cons_of_lt chain i hiltc]
    have hkk : k - i = (k - (i + 1)) + 1 := by omega
    rw [hkk]
    simp [cutTraceL, List.append_assoc]

/-- Whole-execution version of the cut run lemma. -/
theorem execP_cutTrace (chain : List HProg) (ia : Obj) (c cl lg : Val)
    (hnk : Obj.hasKey ia kNext = false) (k : Nat) (hk : k < chain.length)
    (h0 : nextCount (chain.getD k HProg.done) = 0)
    (hf : hasFail (chain.getD k HProg.done) = false)
    (hadv : ∀ j, j < k → advOnce (chain.getD j HProg.done)) :
    execP chain ia c cl lg lastOk =
      (Except.ok (), { lastIdx := (k : Int), trace := cutTraceL k chain 0 }) := by
  cases chain with
  | nil => exact absurd hk (by simp)
  | cons p rest =>
    have h := invoke_cutTrace (p :: rest) ia c cl lg hnk k hk h0 hf k 0 rfl
      (by omega) (fun j hj1 hj2 => hadv j hj2) { lastIdx := -1, trace := [] } (by decide)
    show invokeMiddleware (p :: rest) ia c cl lg lastOk 0 { lastIdx := -1, trace := [] } = _
    rw [h]
    rfl

/-- The cut trace contains no terminal entry and no handler entry beyond the
cutoff. -/
theorem cutTraceL_events (d : Nat) : ∀ (l : List HProg) (i : Nat),
    Event.last ∉ cutTraceL d l i ∧
      ∀ j, Event.call j ∈ cutTraceL d l i → i ≤ j ∧ j ≤ i + d := by
  induction d with
  | zero =>
    intro l i
    cases l with
    | nil => simp [cutTraceL]
    | cons p rest =>
      constructor
      · intro hmem
        simp [cutTraceL, List.mem_map] at hmem
      · intro j hj
        simp [cutTraceL, List.mem_map] at hj
        omega
  | succ m ih =>
    intro l i
    cases l with
    | nil => simp [cutTraceL]
    | cons p rest =>
      have ihr := ih rest (i + 1)
      constructor
      · intro hmem
        simp [cutTraceL, List.mem_append, List.mem_map] at hmem
        exact ihr.1 hmem
      · intro j hj
        simp [cutTraceL, List.mem_append, List.mem_map] at hj
        rcases hj with h | h
        · omega
        · have := ihr.2 j h
          omega

theorem callsOf_append (l1 l2 : List Event) :
    callsOf (l1 ++ l2) = callsOf l1 ++ callsOf l2 :=
  List.filterMap_append l1 l2 _

theorem callsOf_cons_call (j : Nat) (l : List Event) :
    callsOf (Event.call j :: l) = j :: callsOf l := rfl

theorem callsOf_cons_emit (n : Nat) (l : List Event) :
    callsOf (Event.emit n :: l) = callsOf l := rfl

theorem callsOf_cons_last (l : List Event) :
    callsOf (Event.last :: l) = callsOf l := rfl

theorem count_call_callsOf (tr : List Event) (j : Nat) :
    tr.count (Event.call j) = (callsOf tr).count j := by
  induction tr with
  | nil => rfl
  | cons e rest ih =>
    cases e with
    | call m =>
      rw [List.count_cons, callsOf_cons_call, List.count_cons, ih]
      simp
    | emit n =>
      rw [List.count_cons, callsOf_cons_emit, ih]
      simp
    | last =>
      rw [List.count_cons, callsOf_cons_last, ih]
      simp

/-- Any action that returns the incoming state untouched is a good step. -/
theorem goodStep_nil (len : Nat) (act : M Unit) (h : ∀ s : St, (act s).2 = s) :
    GoodStep len act := by
  intro s
  refine ⟨[], ?_, ?_, ?_, List.Pairwise.nil, ?_, ?_⟩
  · rw [h s]; simp
  · rw [h s]
  · intro j hj; simp [callsOf] at hj
  · simp
  · intro hmem; simp at hmem

/-- Running any handler body against a bundle whose `next` entry (if
callable) is a good step is itself a good step. -/
theorem goodStep_runProg (len : Nat) (b : Obj)
    (hb : ∀ act : M Unit, Obj.lookup b kNext = some (Val.fn act) → GoodStep len act) :
    ∀ p : HProg, GoodStep len (runProg p b) := by
  intro p
  induction p with
  | done => exact goodStep_nil len _ (fun s => by rw [runProg_done_eq])
  | fail m => exact goodStep_nil len _ (fun s => by rw [runProg_fail_eq])
  | emit n q ih =>
    intro s
    obtain ⟨Δ, hA, hB, hC, hD, hE, hF⟩ := ih { s with trace := s.trace ++ [Event.emit n] }
    refine ⟨Event.emit n :: Δ, ?_, ?_, ?_, ?_, ?_, ?_⟩
    · rw [runProg_emit_eq, hA]; simp
    · rw [runProg_emit_eq]; exact hB
    · rw [runProg_emit_eq]; intro j hj; exact hC j hj
    · exact hD
    · simpa [List.count_cons] using hE
    · intro hmem
      rw [runProg_emit_eq]
      refine hF ?_
      simpa using hmem
  | next q ih =>
    intro s
    cases hlk : Obj.lookup b kNext with
    | none =>
      have h : (runProg (HProg.next q) b s).2 = s := by rw [runProg_next_eq, hlk]
      refine ⟨[], ?_, ?_, ?_, List.Pairwise.nil, ?_, ?_⟩
      · rw [h]; simp
      · rw [h]
      · intro j hj; simp [callsOf] at hj
      · simp
      · intro hmem; simp at hmem
    | some v =>
      cases v with
      | data d =>
        have h : (runProg (HProg.next q) b s).2 = s := by rw [runProg_next_eq, hlk]
        refine ⟨[], ?_, ?_, ?_, List.Pairwise.nil, ?_, ?_⟩
        · rw [h]; simp
        · rw [h]
        · intro j hj; simp [callsOf] at hj
        · simp
        · intro hmem; simp at hmem
      | fn act =>
        have hstep : runProg (HProg.next q) b s =
            match act s with
            | (Except.ok _, s2) => runProg q b s2
            | (Except.error e', s2) => (Except.error e', s2) := by
          rw [runProg_next_eq, hlk]
        obtain ⟨Δ1, h1A, h1B, h1C, h1D, h1E, h1F⟩ := hb act hlk s
        cases hres : act s with
        | mk r s1 =>
          rw [hres] at h1A h1B h1C h1F
          cases r with
          | error e =>
            have hfin : runProg (HProg.next q) b s = (Except.error e, s1) := by
              rw [hstep, hres]
            refine ⟨Δ1, ?_, ?_, ?_, h1D, h1E, ?_⟩
            · rw [hfin]; exact h1A
            · rw [hfin]; exact h1B
            · rw [hfin]; exact h1C
            · intro hmem; rw [hfin]; exact h1F hmem
          | ok u =>
            obtain ⟨Δ2, h2A, h2B, h2C, h2D, h2E, h2F⟩ := ih s1
            have hfin : runProg (HProg.next q) b s = runProg q b s1 := by
              rw [hstep, hres]
            have hb1 : s.lastIdx ≤ s1.lastIdx := h1B
            have hb2 : s1.lastIdx ≤ (runProg q b s1).2.lastIdx := h2B
            refine ⟨Δ1 ++ Δ2, ?_, ?_, ?_, ?_, ?_, ?_⟩
            · rw [hfin, h2A]
              have ht1 : s1.trace = s.trace ++ Δ1 := h1A
              rw [ht1, List.append_assoc]
            · rw [hfin]; omega
            · rw [hfin]
              intro j hj
              rw [callsOf_append, List.mem_append] at hj
              rcases hj with hj | hj
              · have hc := h1C j hj
                have hc1 : s.lastIdx < (j : Int) := hc.1
                have hc2 : (j : Int) ≤ s1.lastIdx := hc.2
                exact ⟨hc1, by omega⟩
              · have hc := h2C j hj
                have hc1 : s1.lastIdx < (j : Int) := hc.1
                have hc2 : (j : Int) ≤ (runProg q b s1).2.lastIdx := hc.2
                exact ⟨by omega, hc2⟩
            · rw [callsOf_append]
              refine List.pairwise_append.mpr ⟨h1D, h2D, ?_⟩
              intro a ha bb hbb
              have ha2 : (a : Int) ≤ s1.lastIdx := (h1C a ha).2
              have hbb1 : s1.lastIdx < (bb : Int) := (h2C bb hbb).1
              omega
            · rw [List.count_append]
              by_cases hm1 : Event.last ∈ Δ1
              · have hlen1 : (len : Int) ≤ s1.lastIdx := (h1F hm1).2
                by_cases hm2 : Event.last ∈ Δ2
                · have hlen2 : s1.lastIdx < (len : Int) := (h2F hm2).1
                  omega
                · have hz : Δ2.count Event.last = 0 := List.count_eq_zero.mpr hm2
                  omega
              · have hz : Δ1.count Event.last = 0 := List.count_eq_zero.mpr hm1
                omega
            · intro hmem
              rw [hfin]
              rw [List.mem_append] at hmem
              rcases hmem with hmem | hmem
              · have hl := h1F hmem
                have hl1 : s.lastIdx < (len : Int) := hl.1
                have hl2 : (len : Int) ≤ s1.lastIdx := hl.2
                exact ⟨hl1, by omega⟩
              · have hl := h2F hmem
                have hl1 : s1.lastIdx < (len : Int) := hl.1
                have hl2 : (len : Int) ≤ (runProg q b s1).2.lastIdx := hl.2
                exact ⟨by omega, hl2⟩

/-- Every step of the executor is a good step, provided the caller supplied
`initialArgs` does not smuggle a callable under the key `next`. -/
theorem goodStep_invoke (chain : List HProg) (ia : Obj) (c cl lg : Val)
    (hfn : ∀ f : M Unit, Obj.lookup ia kNext ≠ some (Val.fn f)) :
    ∀ (n i : Nat), chain.length - i = n → i ≤ chain.length →
      GoodStep chain.length (invokeMiddleware chain ia c cl lg lastOk i) := by
  intro n
  induction n with
  | zero =>
    intro i hn hle s
    have hi : i = chain.length := by omega
    subst hi
    by_cases hdup : ((chain.length : Nat) : Int) ≤ s.lastIdx
    · have h := invoke_dup chain ia c cl lg lastOk chain.length s hdup
      refine ⟨[], ?_, ?_, ?_, List.Pairwise.nil, ?_, ?_⟩
      · rw [h]; simp
      · rw [h]
      · intro j hj; simp [callsOf] at hj
      · simp
      · intro hmem; simp at hmem
    · push_neg at hdup
      have h : invokeMiddleware chain ia c cl lg lastOk chain.length s =
          (Except.ok (),
            { lastIdx := ((chain.length : Nat) : Int),
              trace := s.trace ++ [Event.last] }) := by
        rw [invoke_stop chain ia c cl lg lastOk chain.length s hdup (le_refl _)]
        rfl
      refine ⟨[Event.last], ?_, ?_, ?_, List.Pairwise.nil, ?_, ?_⟩
      · rw [h]
      · rw [h]; show s.lastIdx ≤ ((chain.length : Nat) : Int); omega
      · intro j hj; simp [callsOf] at hj
      · decide
      · intro _
        rw [h]
        exact ⟨hdup, le_refl _⟩
  | succ m ih =>
    intro i hn hle s
    by_cases hdup : (i : Int) ≤ s.lastIdx
    · have h := invoke_dup chain ia c cl lg lastOk i s hdup
      refine ⟨[], ?_, ?_, ?_, List.Pairwise.nil, ?_, ?_⟩
      · rw [h]; simp
      · rw [h]
      · intro j hj; simp [callsOf] at hj
      · simp
      · intro hmem; simp at hmem
    · push_neg at hdup
      have hilt : i < chain.length := by omega
      have hbun := lookup_mkBundle_next
        (Val.fn (invokeMiddleware chain ia c cl lg lastOk (i + 1))) ia c cl lg
      have hb : ∀ act : M Unit,
          Obj.lookup (mkBundle (Val.fn (invokeMiddleware chain ia c cl lg lastOk (i + 1)))
            ia c cl lg) kNext = some (Val.fn act) →
          GoodStep chain.length act := by
        intro act hact
        cases hia : Obj.lookup ia kNext with
        | none =>
          rw [hbun, hia] at hact
          have hacteq : invokeMiddleware chain ia c cl lg lastOk (i + 1) = act := by
            simpa using hact
          rw [← hacteq]
          exact ih (i + 1) (by omega) (by omega)
        | some v =>
          cases v with
          | data d =>
            rw [hbun, hia] at hact
            simp at hact
          | fn f => exact absurd hia (hfn f)
      have hrp := goodStep_runProg chain.length
        (mkBundle (Val.fn (invokeMiddleware chain ia c cl lg lastOk (i + 1))) ia c cl lg)
        hb (chain.getD i HProg.done)
      obtain ⟨Δ1, h1A, h1B, h1C, h1D, h1E, h1F⟩ := hrp
        { s with lastIdx := (i : Int), trace := s.trace ++ [Event.call i] }
      have heq := invoke_handler chain ia c cl lg lastOk i s hdup hilt
      rw [← heq] at h1A h1B h1C h1F
      have hb1 : (i : Int) ≤ (invokeMiddleware chain ia c cl lg lastOk i s).2.lastIdx := h1B
      refine ⟨Event.call i :: Δ1, ?_, ?_, ?_, ?_, ?_, ?_⟩
      · rw [h1A]; simp
      · omega
      · intro j hj
        rw [callsOf_cons_call, List.mem_cons] at hj
        rcases hj with hj | hj
        · subst hj
          exact ⟨by omega, hb1⟩
        · have hc := h1C j hj
          have hc1 : (i : Int) < (j : Int) := hc.1
          have hc2 : (j : Int) ≤ (invokeMiddleware chain ia c cl lg lastOk i s).2.lastIdx := hc.2
          exact ⟨by omega, hc2⟩
      · rw [callsOf_cons_call]
        refine List.pairwise_cons.mpr ⟨?_, h1D⟩
        intro bb hbb
        have hc1 : (i : Int) < (bb : Int) := (h1C bb hbb).1
        omega
      · simpa [List.count_cons] using h1E
      · intro hmem
        have hmem1 : Event.last ∈ Δ1 := by simpa using hmem
        have hl := h1F hmem1
        have hl1 : (i : Int) < ((chain.length : Nat) : Int) := hl.1
        have hl2 : ((chain.length : Nat) : Int) ≤
            (invokeMiddleware chain ia c cl lg lastOk i s).2.lastIdx := hl.2
        exact ⟨by omega, hl2⟩

/-- When the bundle value under `next` is not callable, a handler body can
only add side effect events: it never moves the counter and never records a
handler or terminal entry. -/
theorem runProg_inert (b : Obj)
    (hnc : ∀ act : M Unit, Obj.lookup b kNext ≠ some (Val.fn act)) :
    ∀ (p : HProg) (s : St), ∃ Δ,
      (runProg p b s).2.trace = s.trace ++ Δ ∧
      (runProg p b s).2.lastIdx = s.lastIdx ∧
      ∀ e ∈ Δ, ∃ n, e = Event.emit n := by
  intro p
  induction p with
  | done => intro s; exact ⟨[], by simp [runProg_done_eq], rfl, by simp⟩
  | fail m => intro s; exact ⟨[], by simp [runProg_fail_eq], rfl, by simp⟩
  | next q ih =>
    intro s
    cases hlk : Obj.lookup b kNext with
    | none =>
      refine ⟨[], ?_, ?_, by simp⟩
      · rw [runProg_next_eq, hlk]; simp
      · rw [runProg_next_eq, hlk]
    | some v =>
      cases v with
      | data d =>
        refine ⟨[], ?_, ?_, by simp⟩
        · rw [runProg_next_eq, hlk]; simp
        · rw [runProg_next_eq, hlk]
      | fn act => exact absurd hlk (hnc act)
  | emit n q ih =>
    intro s
    obtain ⟨Δ, hA, hL, hE⟩ := ih { s with trace := s.trace ++ [Event.emit n] }
    refine ⟨Event.emit n :: Δ, ?_, ?_, ?_⟩
    · rw [runProg_emit_eq, hA]; simp
    · rw [runProg_emit_eq, hL]
    · intro e he
      rcases List.mem_cons.mp he with he | he
      · exact ⟨n, he⟩
      · exact hE e he

theorem lookup_isSome_of_hasKey (o : Obj) (k : String) :
    Obj.hasKey o k = true → ∃ v, Obj.lookup o k = some v := by
  induction o with
  | nil => intro h; simp [Obj.hasKey] at h
  | cons kv rest ih =>
    intro h
    rw [lookup_cons]
    cases hr : Obj.lookup rest k with
    | some v => exact ⟨v, rfl⟩
    | none =>
      simp only [Obj.hasKey, List.any_cons, Bool.or_eq_true, beq_iff_eq] at h
      rcases h with h | h
      · exact ⟨kv.2, by rw [if_pos h]⟩
      · obtain ⟨v, hv⟩ := ih h
        rw [hv] at hr
        exact absurd hr (by simp)

/-- Counting form of the good step invariant over a whole execution. -/
theorem execP_counts (chain : List HProg) (ia : Obj) (c cl lg : Val)
    (hfn : ∀ f : M Unit, Obj.lookup ia kNext ≠ some (Val.fn f)) (j : Nat) :
    (execP chain ia c cl lg lastOk).2.trace.count (Event.call j) ≤ 1 ∧
    (execP chain ia c cl lg lastOk).2.trace.count Event.last ≤ 1 := by
  cases chain with
  | nil =>
    constructor
    · show ([Event.last] : List Event).count (Event.call j) ≤ 1
      simp [List.count_cons]
    · show ([Event.last] : List Event).count Event.last ≤ 1
      decide
  | cons p rest =>
    obtain ⟨Δ, hA, hB, hC, hD, hE, hF⟩ := goodStep_invoke (p :: rest) ia c cl lg hfn
      (p :: rest).length 0 rfl (by omega) { lastIdx := -1, trace := [] }
    have htr : (execP (p :: rest) ia c cl lg lastOk).2.trace = Δ := by
      show (invokeMiddleware (p :: rest) ia c cl lg lastOk 0
        { lastIdx := -1, trace := [] }).2.trace = Δ
      rw [hA]
      rfl
    rw [htr]
    constructor
    · rw [count_call_callsOf]
      have hnd : (callsOf Δ).Nodup := hD.imp Nat.ne_of_lt
      exact List.nodup_iff_count_le_one.mp hnd j
    · exact hE

/-- C1: for every chain in which every handler invokes its advance capability
exactly once (including chains listing the same handler at two indices), the
execution resolves and the trace is the canonical nested trace; forgetting
side effects, that trace is exactly the handler entries in index order, each
exactly once, followed by one terminal entry. -/
theorem claim1_sequential_order (chain : List HProg) (ia : Obj) (c cl lg : Val)
    (hnk : Obj.hasKey ia kNext = false)
    (hadv : ∀ j, j < chain.length → advOnce (chain.getD j HProg.done)) :
    (execP chain ia c cl lg lastOk).1 = Except.ok () ∧
    (execP chain ia c cl lg lastOk).2.trace = fullTraceL chain 0 ∧
    keyEvents (fullTraceL chain 0) =
      (List.range chain.length).map Event.call ++ [Event.last] := by
  refine ⟨(execP_fullTrace chain ia c cl lg hnk hadv).1,
    (execP_fullTrace chain ia c cl lg hnk hadv).2, ?_⟩
  rw [keyEvents_fullTraceL chain 0, List.range_eq_range']

/-- C1 witness: the chain [A, B, B] with each handler advancing once runs as
A, B, B, terminal, with the side effect of B observed exactly twice, after
that of A and before the terminal entry. -/
theorem claim1_sequential_order_witness :
    (execP [hA, hB, hB] [] vCtx vClient vLogger lastOk).1 = Except.ok () ∧
    (execP [hA, hB, hB] [] vCtx vClient vLogger lastOk).2.trace =
      [Event.call 0, Event.emit 10, Event.call 1, Event.emit 20,
        Event.call 2, Event.emit 20, Event.last] := by
  have h := claim1_sequential_order [hA, hB, hB] [] vCtx vClient vLogger
    (by decide) (by decide)
  exact ⟨h.1, by rw [h.2.1]; rfl⟩

/-- C2: a step whose index is at most the recorded highest index fails with
the DuplicateAdvance error before any other effect (the state is returned
untouched); the error is the coded `MiddlewareNextError` with its stable
machine readable code, distinct from every handler failure; and for the one
handler chain whose handler advances twice, the second advance fails with
that error while the terminal handler still ran exactly once. -/
theorem claim2_duplicate_advance :
    (∀ (chain : List HProg) (ia : Obj) (c cl lg : Val) (lastH : M Unit) (i : Nat) (s : St),
      (i : Int) ≤ s.lastIdx →
      invokeMiddleware chain ia c cl lg lastH i s = (Except.error dupNextErr, s)) ∧
    dupNextErr = Err.coded middlewareNextCode middlewareNextMsg ∧
    middlewareNextCode = "slack_bolt_middleware_next_error" ∧
    (∀ n : Nat, dupNextErr ≠ Err.handlerFail n) ∧
    execP [aTwice] [] vCtx vClient vLogger lastOk =
      (Except.error dupNextErr, { lastIdx := 1, trace := [Event.call 0, Event.last] }) :=
  ⟨invoke_dup, rfl, rfl, by intro n; simp [dupNextErr], by decide⟩

/-- C2 witness: a duplicate advance attempt at a concrete state fails with
the DuplicateAdvance error and leaves the state untouched. -/
theorem claim2_duplicate_advance_witness :
    invokeMiddleware [aTwice] [] vCtx vClient vLogger lastOk 1
      { lastIdx := 1, trace := [] } =
      (Except.error dupNextErr, { lastIdx := 1, trace := [] }) :=
  claim2_duplicate_advance.1 [aTwice] [] vCtx vClient vLogger lastOk 1
    { lastIdx := 1, trace := [] } (by decide)

/-- C3: handler i+1 begins only after handler i advances, and code a handler
runs after awaiting its advance executes after the entire remainder of the
chain including the terminal handler: the trace of a fully advancing chain is
the canonical nested trace, whose cons equation places the whole suffix trace
(terminal entry included) strictly between a handler entry with its before
effects and its after effects; concretely for [A, B]: A before, B, terminal,
A after. -/
theorem claim3_nested_unwind :
    (∀ (chain : List HProg) (ia : Obj) (c cl lg : Val),
      Obj.hasKey ia kNext = false →
      (∀ j, j < chain.length → advOnce (chain.getD j HProg.done)) →
      (execP chain ia c cl lg lastOk).2.trace = fullTraceL chain 0) ∧
    (∀ (p : HProg) (rest : List HProg) (i : Nat),
      fullTraceL (p :: rest) i =
        (Event.call i :: (preEmits p).map Event.emit)
          ++ fullTraceL rest (i + 1) ++ (postEmits p).map Event.emit) ∧
    execP [aNest, bImm] [] vCtx vClient vLogger lastOk =
      (Except.ok (),
        { lastIdx := 2,
          trace := [Event.call 0, Event.emit 1, Event.call 1, Event.last,
            Event.emit 2] }) := by
  refine ⟨?_, ?_, by decide⟩
  · intro chain ia c cl lg hnk hadv
    exact (execP_fullTrace chain ia c cl lg hnk hadv).2
  · intro p rest i
    rfl

/-- C3 witness: the general trace characterisation applied to the concrete
chain [A, B]. -/
theorem claim3_nested_unwind_witness :
    (execP [aNest, bImm] [] vCtx vClient vLogger lastOk).2.trace =
      fullTraceL [aNest, bImm] 0 :=
  claim3_nested_unwind.1 [aNest, bImm] [] vCtx vClient vLogger (by decide) (by decide)

/-- C4: when the handler at index k completes without ever advancing (the
handlers before it each advancing exactly once), the execution still resolves
normally — short-circuiting is not an error — the counter stops at k, no
terminal entry occurs and no handler entry above k occurs. -/
theorem claim4_short_circuit (chain : List HProg) (ia : Obj) (c cl lg : Val)
    (k : Nat) (hk : k < chain.length)
    (hnk : Obj.hasKey ia kNext = false)
    (h0 : nextCount (chain.getD k HProg.done) = 0)
    (hf : hasFail (chain.getD k HProg.done) = false)
    (hadv : ∀ j, j < k → advOnce (chain.getD j HProg.done)) :
    execP chain ia c cl lg lastOk =
      (Except.ok (), { lastIdx := (k : Int), trace := cutTraceL k chain 0 }) ∧
    Event.last ∉ cutTraceL k chain 0 ∧
    ∀ j, k < j → Event.call j ∉ cutTraceL k chain 0 := by
  refine ⟨execP_cutTrace chain ia c cl lg hnk k hk h0 hf hadv,
    (cutTraceL_events k chain 0).1, ?_⟩
  intro j hj hmem
  have := (cutTraceL_events k chain 0).2 j hmem
  omega

/-- C4 witness: in the chain [A, B] where A never advances, B and the
terminal handler never run and the execution resolves normally. -/
theorem claim4_short_circuit_witness :
    execP [HProg.done, hB] [] vCtx vClient vLogger lastOk =
      (Except.ok (), { lastIdx := 0, trace := [Event.call 0] }) := by
  have h := claim4_short_circuit [HProg.done, hB] [] vCtx vClient vLogger 0 (by decide)
    (by decide) (by decide) (by decide) (fun j hj => absurd hj (Nat.not_lt_zero j))
  rw [h.1]
  rfl

/-- C5: failures propagate unmodified: the executor returns a failing handler
invocation result as is (it catches, retries and suppresses nothing); a
handler that fails without advancing prevents the terminal handler from ever
running; a failure of the terminal handler becomes the overall failure; and a
handler that advances, lets the rest of the chain complete successfully, and
then raises makes that later failure the overall result. -/
theorem claim5_failure_propagation :
    (∀ (chain : List HProg) (ia : Obj) (c cl lg : Val) (lastH : M Unit) (i : Nat)
      (s : St) (e : Err) (t : St),
      s.lastIdx < (i : Int) → i < chain.length →
      runProg (chain.getD i HProg.done)
        (mkBundle (Val.fn (invokeMiddleware chain ia c cl lg lastH (i + 1))) ia c cl lg)
        { s with lastIdx := (i : Int), trace := s.trace ++ [Event.call i] } =
        (Except.error e, t) →
      invokeMiddleware chain ia c cl lg lastH i s = (Except.error e, t)) ∧
    (∀ n : Nat, execP [HProg.fail n] [] vCtx vClient vLogger lastOk =
      (Except.error (Err.handlerFail n), { lastIdx := 0, trace := [Event.call 0] })) ∧
    (∀ n : Nat, execP [bImm] [] vCtx vClient vLogger (lastFailT n) =
      (Except.error (Err.handlerFail n),
        { lastIdx := 1, trace := [Event.call 0, Event.last] })) ∧
    (∀ n : Nat, execP [HProg.next (HProg.fail n)] [] vCtx vClient vLogger lastOk =
      (Except.error (Err.handlerFail n),
        { lastIdx := 1, trace := [Event.call 0, Event.last] })) := by
  refine ⟨?_, ?_, ?_, ?_⟩
  · intro chain ia c cl lg lastH i s e t h1 h2 h3
    rw [invoke_handler chain ia c cl lg lastH i s h1 h2, h3]
  · intro n; rfl
  · intro n; rfl
  · intro n; rfl

/-- C5 witness: a concrete failing handler propagates its failure unchanged
and the terminal handler never runs. -/
theorem claim5_failure_propagation_witness :
    invokeMiddleware [HProg.fail 7] [] vCtx vClient vLogger lastOk 0
      { lastIdx := -1, trace := [] } =
      (Except.error (Err.handlerFail 7), { lastIdx := 0, trace := [Event.call 0] }) :=
  claim5_failure_propagation.1 [HProg.fail 7] [] vCtx vClient vLogger lastOk 0
    { lastIdx := -1, trace := [] } (Err.handlerFail 7)
    { lastIdx := 0, trace := [Event.call 0] } (by decide) (by decide) (by decide)

/-- C6: a reached handler is invoked with the freshly built bundle whose
advance capability is the executor continuation bound to the following index,
and whose context, client and logger entries are exactly the caller supplied
values whatever `initialArgs` contains; when `initialArgs` does not use the
key `next`, the bundle exposes that fresh capability under `next`. -/
theorem claim6_bundle (chain : List HProg) (ia : Obj) (c cl lg : Val) (lastH : M Unit)
    (i : Nat) (s : St) (h1 : s.lastIdx < (i : Int)) (h2 : i < chain.length) :
    invokeMiddleware chain ia c cl lg lastH i s =
      runProg (chain.getD i HProg.done)
        (mkBundle (Val.fn (invokeMiddleware chain ia c cl lg lastH (i + 1))) ia c cl lg)
        { s with lastIdx := (i : Int), trace := s.trace ++ [Event.call i] } ∧
    Obj.lookup (mkBundle (Val.fn (invokeMiddleware chain ia c cl lg lastH (i + 1)))
      ia c cl lg) kContext = some c ∧
    Obj.lookup (mkBundle (Val.fn (invokeMiddleware chain ia c cl lg lastH (i + 1)))
      ia c cl lg) kClient = some cl ∧
    Obj.lookup (mkBundle (Val.fn (invokeMiddleware chain ia c cl lg lastH (i + 1)))
      ia c cl lg) kLogger = some lg ∧
    (Obj.hasKey ia kNext = false →
      Obj.lookup (mkBundle (Val.fn (invokeMiddleware chain ia c cl lg lastH (i + 1)))
        ia c cl lg) kNext =
        some (Val.fn (invokeMiddleware chain ia c cl lg lastH (i + 1)))) :=
  ⟨invoke_handler chain ia c cl lg lastH i s h1 h2,
    lookup_mkBundle_context _ ia c cl lg,
    lookup_mkBundle_client _ ia c cl lg,
    lookup_mkBundle_logger _ ia c cl lg,
    fun h => lookup_mkBundle_next_default _ ia c cl lg h⟩

/-- C6 witness: the bundle of handler 0 of a concrete chain carries the
executor continuation bound to index 1 and the caller supplied context. -/
theorem claim6_bundle_witness :
    invokeMiddleware [bImm] [] vCtx vClient vLogger lastOk 0
      { lastIdx := -1, trace := [] } =
      runProg bImm
        (mkBundle (Val.fn (invokeMiddleware [bImm] [] vCtx vClient vLogger lastOk 1))
          [] vCtx vClient vLogger) { lastIdx := 0, trace := [Event.call 0] } ∧
    Obj.lookup (mkBundle (Val.fn (invokeMiddleware [bImm] [] vCtx vClient vLogger lastOk 1))
      [] vCtx vClient vLogger) kContext = some vCtx := by
  have h := claim6_bundle [bImm] [] vCtx vClient vLogger lastOk 0
    { lastIdx := -1, trace := [] } (by decide) (by decide)
  exact ⟨h.1, h.2.1⟩

/-- C7: the empty chain goes straight to the terminal handler: the executor
returns the terminal handler itself, with no counter bookkeeping; with a
recording terminal the trace is exactly one terminal entry and the counter is
untouched; omitting the terminal means the source default `async () => { }`,
and the empty chain then completes successfully with no event at all. -/
theorem claim7_empty_chain :
    (∀ (ia : Obj) (c cl lg : Val) (lastH : M Unit),
      processMiddleware [] ia c cl lg lastH = lastH) ∧
    (∀ (ia : Obj) (c cl lg : Val),
      execP [] ia c cl lg lastOk =
        (Except.ok (), { lastIdx := -1, trace := [Event.last] })) ∧
    (∀ (ia : Obj) (c cl lg : Val),
      execP [] ia c cl lg defaultLast = (Except.ok (), { lastIdx := -1, trace := [] })) :=
  ⟨fun _ _ _ _ _ => rfl, fun _ _ _ _ => rfl, fun _ _ _ _ => rfl⟩

/-- C8: a passing step records its index as the new highest index before the
handler at that index (or the terminal handler) runs — both run in the
already updated state — so a re-entrant or synchronously recursive advance
attempt with step index at most the recorded one fails as a duplicate, with
no further effect. -/
theorem claim8_counter_updated_first :
    (∀ (chain : List HProg) (ia : Obj) (c cl lg : Val) (lastH : M Unit) (i : Nat) (s : St),
      s.lastIdx < (i : Int) → i < chain.length →
      invokeMiddleware chain ia c cl lg lastH i s =
        runProg (chain.getD i HProg.done)
          (mkBundle (Val.fn (invokeMiddleware chain ia c cl lg lastH (i + 1))) ia c cl lg)
          { s with lastIdx := (i : Int), trace := s.trace ++ [Event.call i] }) ∧
    (∀ (chain : List HProg) (ia : Obj) (c cl lg : Val) (lastH : M Unit) (i : Nat) (s : St),
      s.lastIdx < (i : Int) → chain.length ≤ i →
      invokeMiddleware chain ia c cl lg lastH i s = lastH { s with lastIdx := (i : Int) }) ∧
    (∀ (chain : List HProg) (ia : Obj) (c cl lg : Val) (lastH : M Unit) (j : Nat) (s : St),
      (j : Int) ≤ s.lastIdx →
      invokeMiddleware chain ia c cl lg lastH j s = (Except.error dupNextErr, s)) :=
  ⟨invoke_handler, invoke_stop, invoke_dup⟩

/-- C8 witness: once the counter has been moved to 1 by the step into handler
1, a recursive advance attempt at index 1 during that same step is rejected
as a duplicate. -/
theorem claim8_counter_updated_first_witness :
    invokeMiddleware [bImm, aTwice] [] vCtx vClient vLogger lastOk 1
      { lastIdx := 1, trace := [Event.call 0] } =
      (Except.error dupNextErr, { lastIdx := 1, trace := [Event.call 0] }) :=
  claim8_counter_updated_first.2.2 [bImm, aTwice] [] vCtx vClient vLogger lastOk 1
    { lastIdx := 1, trace := [Event.call 0] } (by decide)

/-- C9: in every execution, whatever the handlers do, no handler index is
entered twice and the terminal handler is entered at most once: the counter
only moves up and each entry is recorded strictly above the previous counter
value. -/
theorem claim9_at_most_once (chain : List HProg) (ia : Obj) (c cl lg : Val)
    (hfn : ∀ f : M Unit, Obj.lookup ia kNext ≠ some (Val.fn f)) (j : Nat) :
    (execP chain ia c cl lg lastOk).2.trace.count (Event.call j) ≤ 1 ∧
    (execP chain ia c cl lg lastOk).2.trace.count Event.last ≤ 1 :=
  execP_counts chain ia c cl lg hfn j

/-- C9 witness: the invariant at a concrete chain and index. -/
theorem claim9_at_most_once_witness :
    (execP [hA] [] vCtx vClient vLogger lastOk).2.trace.count (Event.call 0) ≤ 1 ∧
    (execP [hA] [] vCtx vClient vLogger lastOk).2.trace.count Event.last ≤ 1 :=
  claim9_at_most_once [hA] [] vCtx vClient vLogger (fun _ h => Option.noConfusion h) 0

/-- C10: because the bundle lists `next` first, then spreads `initialArgs`,
then writes context, client and logger: a caller supplied `next` key replaces
the executor advance capability in every bundle — so with a non callable
caller value there no handler index above 0 and no terminal entry is ever
reached — while caller supplied `context`, `client` or `logger` keys are
always overridden by the executor supplied values. -/
theorem claim10_next_shadowing :
    (∀ (nc : Val) (ia : Obj) (c cl lg : Val),
      Obj.hasKey ia kNext = true →
      Obj.lookup (mkBundle nc ia c cl lg) kNext = Obj.lookup ia kNext) ∧
    (∀ (nc : Val) (ia : Obj) (c cl lg : Val),
      Obj.lookup (mkBundle nc ia c cl lg) kContext = some c ∧
      Obj.lookup (mkBundle nc ia c cl lg) kClient = some cl ∧
      Obj.lookup (mkBundle nc ia c cl lg) kLogger = some lg) ∧
    (∀ (p : HProg) (rest : List HProg) (ia : Obj) (c cl lg : Val) (d : Nat),
      Obj.lookup ia kNext = some (Val.data d) →
      (∀ j, 1 ≤ j →
        (execP (p :: rest) ia c cl lg lastOk).2.trace.count (Event.call j) = 0) ∧
      (execP (p :: rest) ia c cl lg lastOk).2.trace.count Event.last = 0) := by
  refine ⟨?_, ?_, ?_⟩
  · intro nc ia c cl lg hk
    obtain ⟨v, hv⟩ := lookup_isSome_of_hasKey ia kNext hk
    rw [lookup_mkBundle_next, hv]
  · intro nc ia c cl lg
    exact ⟨lookup_mkBundle_context nc ia c cl lg, lookup_mkBundle_client nc ia c cl lg,
      lookup_mkBundle_logger nc ia c cl lg⟩
  · intro p rest ia c cl lg d hia
    have hnc : ∀ act : M Unit,
        Obj.lookup (mkBundle (Val.fn (invokeMiddleware (p :: rest) ia c cl lg lastOk 1))
          ia c cl lg) kNext ≠ some (Val.fn act) := by
      intro act hact
      rw [lookup_mkBundle_next, hia] at hact
      simp at hact
    have hex : execP (p :: rest) ia c cl lg lastOk =
        runProg p
          (mkBundle (Val.fn (invokeMiddleware (p :: rest) ia c cl lg lastOk 1)) ia c cl lg)
          { lastIdx := 0, trace := [Event.call 0] } :=
      invoke_handler (p :: rest) ia c cl lg lastOk 0
        { lastIdx := -1, trace := [] } (by decide) (by simp)
    obtain ⟨Δ, hA, hL, hE⟩ := runProg_inert
      (mkBundle (Val.fn (invokeMiddleware (p :: rest) ia c cl lg lastOk 1)) ia c cl lg)
      hnc p { lastIdx := 0, trace := [Event.call 0] }
    have htr : (execP (p :: rest) ia c cl lg lastOk).2.trace = [Event.call 0] ++ Δ := by
      rw [hex]
      exact hA
    constructor
    · intro j hj
      rw [htr, List.count_append]
      have hz1 : ([Event.call 0] : List Event).count (Event.call j) = 0 := by
        rw [List.count_eq_zero]
        simp
        omega
      have hz2 : Δ.count (Event.call j) = 0 := by
        rw [List.count_eq_zero]
        intro hmem
        obtain ⟨n, hn⟩ := hE _ hmem
        exact absurd hn (by simp)
      omega
    · rw [htr, List.count_append]
      have hz1 : ([Event.call 0] : List Event).count Event.last = 0 := by decide
      have hz2 : Δ.count Event.last = 0 := by
        rw [List.count_eq_zero]
        intro hmem
        obtain ⟨n, hn⟩ := hE _ hmem
        exact absurd hn (by simp)
      omega

/-- C10 witness: a caller supplied `next` key shadows the executor capability
in the bundle, and a two handler chain run with such initialArgs never
reaches handler 1. -/
theorem claim10_next_shadowing_witness :
    Obj.lookup (mkBundle (Val.data 9) [(kNext, Val.data 7)] vCtx vClient vLogger) kNext =
      Obj.lookup [(kNext, Val.data 7)] kNext ∧
    (execP [bImm, hB] [(kNext, Val.data 7)] vCtx vClient vLogger
      lastOk).2.trace.count (Event.call 1) = 0 := by
  have h1 := claim10_next_shadowing.1 (Val.data 9) [(kNext, Val.data 7)]
    vCtx vClient vLogger (by decide)
  have h3 := (claim10_next_shadowing.2.2 bImm [hB] [(kNext, Val.data 7)]
    vCtx vClient vLogger 7 rfl).1 1 (by decide)
  exact ⟨h1, h3⟩

